import Mathlib

/-!
Shallow embedding of the CRC repository: the bit-serial reference
`option_5_naive_cpp`, the single-lane 8-byte hardware strategy
`option_12_hardware_8_bytes`, the two-lane folding engine
`option_14_golden_amd` together with its constant table
(`g_lut_amd`, `compute_golden_lut_amd`), and proofs relating them.

Byte memory is modelled as a function `mem : Nat → Nat` from addresses to
byte values; loads truncate to the accessed width, mirroring the C
dereferences.  Machine integers are modelled as `Nat` with explicit
`% 2 ^ w` at the points where the C code truncates.
-/

namespace CRC

/-- CRC-32C polynomial in reflected form: `constexpr uint32_t P = 0x82f63b78`. -/
def P : Nat := 0x82f63b78

/-- The full 33-bit reflected generator polynomial `2 * P + 1`; a proof-side
constant (the reflected polynomial including both end bits). -/
def Q : Nat := 2 * P + 1

/-- One bit-serial LFSR step, the line `R = R & 1 ? (R >> 1) ^ P : R >> 1`
shared by `option_5_naive_cpp` and `compute_golden_lut_amd`. -/
def lfsrStep (r : Nat) : Nat := if r % 2 = 1 then r / 2 ^^^ P else r / 2

/-- NativeStep primitive `step8`, the semantics of `_mm_crc32_u8`: eight
bit-serial steps over the 32-bit state XORed with the data byte. -/
def step8 (s b : Nat) : Nat := lfsrStep^[8] (s % 2 ^ 32 ^^^ b)

/-- NativeStep primitive `step64`, the semantics of `_mm_crc32_u64`:
sixty-four bit-serial steps over the 32-bit state XORed with the 64-bit
data word. -/
def step64 (s w : Nat) : Nat := lfsrStep^[64] (s % 2 ^ 32 ^^^ w % 2 ^ 64)

/-- Carryless multiplication, `k` rounds over the low bits of `a`. -/
def clmulBits : Nat → Nat → Nat → Nat
  | 0, _, _ => 0
  | k + 1, a, b => (if a % 2 = 1 then b else 0) ^^^ 2 * clmulBits k (a / 2) b

/-- CarrylessMultiplier primitive, the semantics of `_mm_clmulepi64_si128`
on the selected 64-bit lanes: GF(2) polynomial product of the two 64-bit
operands (the caller truncates to the low 64 bits exactly as the code
extracts them with `_mm_cvtsi128_si64`). -/
def clmul (a b : Nat) : Nat := clmulBits 64 (a % 2 ^ 64) b

/-- Byte load `*(uint8_t*)p` from byte memory `mem`. -/
def rd8 (mem : Nat → Nat) (p : Nat) : Nat := mem p % 2 ^ 8

/-- Little-endian 8-byte load `*(uint64_t*)p` (x86). -/
def rd64 (mem : Nat → Nat) (p : Nat) : Nat :=
  rd8 mem p + 2 ^ 8 * (rd8 mem (p + 1) + 2 ^ 8 * (rd8 mem (p + 2) +
    2 ^ 8 * (rd8 mem (p + 3) + 2 ^ 8 * (rd8 mem (p + 4) + 2 ^ 8 * (rd8 mem (p + 5) +
    2 ^ 8 * (rd8 mem (p + 6) + 2 ^ 8 * rd8 mem (p + 7)))))))

/-- The logical byte contents of the `len` bytes starting at address `p`. -/
def bytesAt (mem : Nat → Nat) : Nat → Nat → List Nat
  | _, 0 => []
  | p, len + 1 => rd8 mem p :: bytesAt mem (p + 1) len

/-- The `n` little-endian 64-bit words starting at address `p`. -/
def wordsAt (mem : Nat → Nat) : Nat → Nat → List Nat
  | _, 0 => []
  | p, n + 1 => rd64 mem p :: wordsAt mem (p + 8) n

/-- Folding `step8` over a byte list from state `c` (the bit-serial CRC of
the bytes continuing from `c`). -/
def crcBytes (c : Nat) (bs : List Nat) : Nat := bs.foldl step8 c

/-- Folding `step64` over a word list from state `c`. -/
def crcWords (c : Nat) (ws : List Nat) : Nat := ws.foldl step64 c

/-- The embedded constant table `static constexpr uint32_t g_lut_amd[]`
(128 entries). -/
def g_lut_amd : List Nat := [
0x00000001, 0x493c7d27, 0xf20c0dfe, 0xba4fc28e, 0x3da6d0cb, 0xddc0152b, 0x1c291d04, 0x9e4addf8,
0x740eef02, 0x39d3b296, 0x083a6eec, 0x0715ce53, 0xc49f4f67, 0x47db8317, 0x2ad91c30, 0x0d3b6092,
0x6992cea2, 0xc96cfdc0, 0x7e908048, 0x878a92a7, 0x1b3d8f29, 0xdaece73e, 0xf1d0f55e, 0xab7aff2a,
0xa87ab8a8, 0x2162d385, 0x8462d800, 0x83348832, 0x71d111a8, 0x299847d5, 0xffd852c6, 0xb9e02b86,
0xdcb17aa4, 0x18b33a4e, 0xf37c5aee, 0xb6dd949b, 0x6051d5a2, 0x78d9ccb7, 0x18b0d4ff, 0xbac2fd7b,
0x21f3d99c, 0xa60ce07b, 0x8f158014, 0xce7f39f4, 0xa00457f7, 0x61d82e56, 0x8d6d2c43, 0xd270f1a2,
0x00ac29cf, 0xc619809d, 0xe9adf796, 0x2b3cac5d, 0x96638b34, 0x65863b64, 0xe0e9f351, 0x1b03397f,
0x9af01f2d, 0xebb883bd, 0x2cff42cf, 0xb3e32c28, 0x88f25a3a, 0x064f7f26, 0x4e36f0b0, 0xdd7e3b0c,
0xbd6f81f8, 0xf285651c, 0x91c9bd4b, 0x10746f3c, 0x885f087b, 0xc7a68855, 0x4c144932, 0x271d9844,
0x52148f02, 0x8e766a0c, 0xa3c6f37a, 0x93a5f730, 0xd7c0557f, 0x6cb08e5c, 0x63ded06a, 0x6b749fb2,
0x4d56973c, 0x1393e203, 0x9669c9df, 0xcec3662e, 0xe417f38a, 0x96c515bb, 0x4b9e0f71, 0xe6fc4e6a,
0xd104b8fc, 0x8227bb8a, 0x5b397730, 0xb0cd4768, 0xe78eb416, 0x39c7ff35, 0x61ff0e01, 0xd7a4825c,
0x8d96551c, 0x0ab3844b, 0x0bf80dd2, 0x0167d312, 0x8821abed, 0xf6076544, 0x6a45d2b2, 0x26f6a60a,
0xd8d26619, 0xa741c1bf, 0xde87806c, 0x98d8d9cb, 0x14338754, 0x49c3cc9c, 0x5bd2011f, 0x68bce87a,
0xdd07448e, 0x57a3d037, 0xdde8f5b9, 0x6956fc3b, 0xa3e3e02c, 0x42d98888, 0xd73c7bea, 0x3771e98f,
0x80ff0093, 0xb42ae3d9, 0x8fe4c34d, 0x2178513a, 0xdf99fc11, 0xe0ac139e, 0x6c23e841, 0x170076fa]

/-- Leaf threshold: `constexpr uint32_t LEAF_SIZE_AMD = 7 * 16`. -/
def LEAF_SIZE_AMD : Nat := 7 * 16

/-- The loop of `compute_golden_lut_amd`: record the running value `R`,
then advance it through 64 single-bit LFSR steps, `k` times. -/
def lutLoop : Nat → Nat → List Nat
  | 0, _ => []
  | k + 1, r => r :: lutLoop k (lfsrStep^[64] r)

/-- `compute_golden_lut_amd(tbl, n)`: writes `n << 1` entries starting
from `R = 1`. -/
def compute_golden_lut_amd (n : Nat) : List Nat := lutLoop (n <<< 1) 1

/-- The unrolled `switch` body `CRC_ITERS_128_TO_2()`: entering at case `i`
executes `CRC_ITER(i)`, `CRC_ITER(i-1)`, ..., `CRC_ITER(2)`, each advancing
both lanes by one 8-byte word read behind the already-advanced pointers. -/
def laneLoop (mem : Nat → Nat) (pA pB : Nat) : Nat → Nat → Nat → Nat × Nat
  | 0, cA, cB => (cA, cB)
  | 1, cA, cB => (cA, cB)
  | i + 2, cA, cB =>
      laneLoop mem pA pB (i + 1)
        (step64 cA (rd64 mem (pA - 8 * (i + 2))))
        (step64 cB (rd64 mem (pB - 8 * (i + 2))))

/-- `switch (n) CRC_ITERS_128_TO_2();` — cases exist only for 2..128, any
other value of `n` matches no case and the switch is a no-op. -/
def laneSwitch (mem : Nat → Nat) (pA pB n cA cB : Nat) : Nat × Nat :=
  if n ≤ 128 then laneLoop mem pA pB n cA cB else (cA, cB)

/-- The block count chosen by each bulk iteration:
`const uint32_t n = bytes < 128 * 16 ? bytes >> 4 : 128`. -/
def blockCount (bytes : Nat) : Nat := if bytes < 128 * 16 then bytes >>> 4 else 128

/-- One bulk-folding iteration of `option_14_golden_amd` (the loop body):
advance the pointers, run the unrolled switch over both lanes, finish lane
A's last word, look up `g_lut_amd[n - 1]`, carryless-multiply it against
lane A's accumulator, and native-step lane B's accumulator seeded with the
low 64 bits of the product XORed with the last word of lane B's range. -/
def bulkBody (mem : Nat → Nat) (p n c : Nat) : Nat :=
  let pA := p + 8 * n
  let pB := pA + 8 * n
  let lanes := laneSwitch mem pA pB n c 0
  let cA1 := step64 lanes.1 (rd64 mem (pA - 8))
  let vK := g_lut_amd.getD (n - 1) 0
  let vA := clmul cA1 vK % 2 ^ 64
  step64 lanes.2 (vA ^^^ rd64 mem (pB - 8))

/-- The bulk folding loop `while (bytes >= LEAF_SIZE_AMD)`.  The first
argument is fuel; each iteration consumes `16 * n ≥ LEAF_SIZE_AMD ≥ 112`
bytes, so fuel `bytes` always suffices (`bulkGo` is invoked with exactly
that fuel below, and the characterisation lemmas assume `bytes ≤ fuel`). -/
def bulkGo (mem : Nat → Nat) : Nat → Nat → Nat → Nat → Nat × Nat × Nat
  | 0, p, bytes, c => (p, bytes, c)
  | fuel + 1, p, bytes, c =>
    if LEAF_SIZE_AMD ≤ bytes then
      let n := blockCount bytes
      bulkGo mem fuel (p + 16 * n) (bytes - 16 * n) (bulkBody mem p n c)
    else (p, bytes, c)

/-- Alignment prefix loop `for (; toAlign && bytes; ++pA, --bytes, --toAlign)`,
structural on `toAlign`. -/
def alignLoop (mem : Nat → Nat) : Nat → Nat → Nat → Nat → Nat × Nat × Nat
  | 0, p, bytes, c => (p, bytes, c)
  | t + 1, p, bytes, c =>
    if bytes = 0 then (p, bytes, c)
    else alignLoop mem t (p + 1) (bytes - 1) (step8 c (rd8 mem p))

/-- Word tail loop `for (; bytes >= 8; bytes -= 8, pA += 8)`. -/
def wordTail (mem : Nat → Nat) : Nat → Nat → Nat → Nat × Nat × Nat
  | p, c, bytes + 8 => wordTail mem (p + 8) (step64 c (rd64 mem p)) bytes
  | p, c, bytes => (p, bytes, c)

/-- Byte tail loop `for (; bytes; --bytes, ++pA)`. -/
def byteTail (mem : Nat → Nat) : Nat → Nat → Nat → Nat
  | _, c, 0 => c
  | p, c, bytes + 1 => byteTail mem (p + 1) (step8 c (rd8 mem p)) bytes

/-- Stages 3-4 of the folding engine (the word tail loop followed by the
byte tail loop), on a pointer, remaining byte count and accumulator. -/
def seqTails (mem : Nat → Nat) (p bytes c : Nat) : Nat :=
  let st := wordTail mem p c bytes
  byteTail mem st.1 st.2.2 st.2.1

/-- OPTION 14: the two-lane folding engine `option_14_golden_amd(M, bytes, prev)`.
`M` is the buffer address (so alignment is `M`'s residue modulo 8); the
byte at address `a` is `mem a`. -/
def option_14_golden_amd (mem : Nat → Nat) (M bytes prev : Nat) : Nat :=
  let crcA := prev % 2 ^ 32
  let toAlign := (2 ^ 64 - M % 2 ^ 64) % 8
  let st1 := alignLoop mem toAlign M bytes crcA
  let st2 := bulkGo mem st1.2.1 st1.1 st1.2.1 st1.2.2
  seqTails mem st2.1 st2.2.1 st2.2.2 % 2 ^ 32

/-- The loop of `option_5_naive_cpp`: `R ^= M8[i]` followed by eight
bit-serial LFSR steps, once per byte. -/
def naiveLoop (mem : Nat → Nat) : Nat → Nat → Nat → Nat
  | _, r, 0 => r
  | p, r, k + 1 => naiveLoop mem (p + 1) (lfsrStep^[8] (r ^^^ rd8 mem p)) k

/-- OPTION 5: the bit-serial reference `option_5_naive_cpp(M, bytes)`. -/
def option_5_naive_cpp (mem : Nat → Nat) (M bytes : Nat) : Nat :=
  naiveLoop mem M 0 bytes

/-- The loop of `option_12_hardware_8_bytes`: one `_mm_crc32_u64` per
64-bit word, `bytes >> 3` times. -/
def hw8Loop (mem : Nat → Nat) : Nat → Nat → Nat → Nat
  | _, r, 0 => r
  | p, r, k + 1 => hw8Loop mem (p + 8) (step64 r (rd64 mem p)) k

/-- OPTION 12: `option_12_hardware_8_bytes(M, bytes)`; iterates over
`bytes >> 3` words and returns `(uint32_t)R`. -/
def option_12_hardware_8_bytes (mem : Nat → Nat) (M bytes : Nat) : Nat :=
  hw8Loop mem M 0 (bytes >>> 3) % 2 ^ 32

/-- Modelled from the spec: reversal of the 32-bit register bit order
(glossary: the least-significant register bit corresponds to the
highest-degree polynomial term). -/
def bitrev32 (v : Nat) : Nat :=
  (List.range 32).foldl (fun acc k => acc + 2 ^ (31 - k) * (v / 2 ^ k % 2)) 0

/-- Modelled from the spec: the generator polynomial `P(x)` in normal
(non-reflected) form, a degree-32 polynomial whose value encoding has bit
`j` holding the coefficient of `x^j`; the source stores it reflected in
`P`. -/
def G : Nat := 2 ^ 32 + bitrev32 P

/-- Modelled from the spec: multiplication by `x` followed by reduction
modulo `P(x)` in GF(2)[x], on naturally-encoded polynomials of degree at
most 31. -/
def polyMulX (q : Nat) : Nat := if 2 * q / 2 ^ 32 % 2 = 1 then 2 * q ^^^ G else 2 * q

/-- Modelled from the spec: `x^e mod P(x)` computed in GF(2)[x]. -/
def xPowMod (e : Nat) : Nat := polyMulX^[e] 1

/-- The claim's reading of a table entry: the (reflected) encoding of
`x^(64*(i+1)) mod P(x)`. -/
def specLutEntry (i : Nat) : Nat := bitrev32 (xPowMod (64 * (i + 1)))

/-- The encoding actually produced by the builder: the (reflected)
encoding of `x^(64*i + 31) mod P(x)`. -/
def lutEntryRef (i : Nat) : Nat := bitrev32 (xPowMod (64 * i + 31))

/-- Chain of `k` successive values `q, x^64 q, x^128 q, ...` (mod `P(x)`),
used to evaluate the reference table incrementally. -/
def powChain : Nat → Nat → List Nat
  | 0, _ => []
  | k + 1, q => q :: powChain k (polyMulX^[64] q)

/-- Formalisation of claim C2's merge formula: carryless-multiply
`ConstantTable[n-1]` against lane A's accumulator BEFORE its final word,
XOR lane A's final word into the low 64 bits of the product, and
native-step lane B's accumulator seeded with that value. -/
def bulkBodyClaim (mem : Nat → Nat) (p n c : Nat) : Nat :=
  let pA := p + 8 * n
  let pB := pA + 8 * n
  let lanes := laneSwitch mem pA pB n c 0
  let vK := g_lut_amd.getD (n - 1) 0
  let mergedSeed := clmul vK lanes.1 % 2 ^ 64 ^^^ rd64 mem (pA - 8)
  step64 lanes.2 mergedSeed

/-- Little-endian value of a byte list (proof-side helper). -/
def valLE : List Nat → Nat
  | [] => 0
  | b :: bs => b + 2 ^ 8 * valLE bs

/-- The folding engine with the bulk-folding loop removed: alignment
prefix, then word tail, then byte tail (pure sequential native stepping). -/
def option_14_no_bulk (mem : Nat → Nat) (M bytes prev : Nat) : Nat :=
  let crcA := prev % 2 ^ 32
  let toAlign := (2 ^ 64 - M % 2 ^ 64) % 8
  let st1 := alignLoop mem toAlign M bytes crcA
  seqTails mem st1.1 st1.2.1 st1.2.2 % 2 ^ 32

/-! ### Bit-level toolkit -/

theorem xor_cancel_pair (x y p : Nat) : (x ^^^ p) ^^^ (y ^^^ p) = x ^^^ y := by
  rw [Nat.xor_comm y p, ← Nat.xor_assoc, Nat.xor_assoc x p p, Nat.xor_self, Nat.xor_zero]

theorem two_mul_xor (a b : Nat) : 2 * (a ^^^ b) = 2 * a ^^^ 2 * b := by
  have hsh : ∀ x : Nat, 2 * x = x <<< 1 := by
    intro x; rw [Nat.shiftLeft_eq]; ring
  rw [hsh, hsh, hsh]
  apply Nat.eq_of_testBit_eq
  intro j
  simp [Bool.and_xor_distrib_left]

theorem two_pow_mul_or_eq_xor {b : Nat} (i : Nat) (hb : b < 2 ^ i) (a : Nat) :
    2 ^ i * a ||| b = 2 ^ i * a ^^^ b := by
  apply Nat.eq_of_testBit_eq
  intro j
  rw [Nat.testBit_or, Nat.testBit_xor, Nat.testBit_mul_pow_two]
  by_cases hj : j < i
  · have : ¬ j ≥ i := by omega
    simp [this]
  · have hji : j ≥ i := by omega
    have hbj : b < 2 ^ j := lt_of_lt_of_le hb (Nat.pow_le_pow_right (by omega) hji)
    simp [hji, Nat.testBit_lt_two_pow hbj]

theorem two_pow_mul_add_eq_xor {b : Nat} (i : Nat) (hb : b < 2 ^ i) (a : Nat) :
    2 ^ i * a + b = 2 ^ i * a ^^^ b := by
  rw [Nat.mul_add_lt_is_or hb, two_pow_mul_or_eq_xor i hb]

theorem xor_mod_two (a b : Nat) : (a ^^^ b) % 2 = (a % 2 + b % 2) % 2 := by
  have hiff := Nat.xor_mod_two_eq_one (a := a) (b := b)
  rcases Nat.mod_two_eq_zero_or_one a with ha | ha <;>
    rcases Nat.mod_two_eq_zero_or_one b with hb | hb <;>
    rw [ha, hb] <;> rw [ha, hb] at hiff
  · have hh : ¬ (a ^^^ b) % 2 = 1 := fun hc => (hiff.1 hc) (by simp)
    have hor := Nat.mod_two_eq_zero_or_one (a ^^^ b)
    omega
  · have hh : (a ^^^ b) % 2 = 1 := hiff.2 (by simp)
    omega
  · have hh : (a ^^^ b) % 2 = 1 := hiff.2 (by simp)
    omega
  · have hh : ¬ (a ^^^ b) % 2 = 1 := fun hc => (hiff.1 hc) (by simp)
    have hor := Nat.mod_two_eq_zero_or_one (a ^^^ b)
    omega

/-! ### LFSR algebra -/

theorem lfsr_xor (a b : Nat) : lfsrStep (a ^^^ b) = lfsrStep a ^^^ lfsrStep b := by
  have hx := xor_mod_two a b
  have hd := Nat.xor_div_two (a := a) (b := b)
  unfold lfsrStep
  rcases Nat.mod_two_eq_zero_or_one a with ha | ha <;>
    rcases Nat.mod_two_eq_zero_or_one b with hb | hb
  · rw [if_neg (by omega), if_neg (by omega), if_neg (by omega), hd]
  · rw [if_pos (by omega), if_neg (by omega), if_pos hb, hd, Nat.xor_assoc]
  · rw [if_pos (by omega), if_pos ha, if_neg (by omega), hd, Nat.xor_assoc, Nat.xor_assoc,
      Nat.xor_comm (b / 2) P]
  · rw [if_neg (by omega), if_pos ha, if_pos hb, hd, xor_cancel_pair]

theorem lfsr_iter_xor (k a b : Nat) :
    lfsrStep^[k] (a ^^^ b) = lfsrStep^[k] a ^^^ lfsrStep^[k] b := by
  induction k generalizing a b with
  | zero => rfl
  | succ k ih =>
    rw [Function.iterate_succ_apply, Function.iterate_succ_apply,
      Function.iterate_succ_apply, lfsr_xor, ih]

theorem lfsr_two_mul (a : Nat) : lfsrStep (2 * a) = a := by
  unfold lfsrStep
  rw [if_neg (by omega)]
  omega

theorem lfsr_zero : lfsrStep 0 = 0 := by simp [lfsrStep]

theorem lfsr_iter_zero (k : Nat) : lfsrStep^[k] 0 = 0 := by
  induction k with
  | zero => rfl
  | succ k ih => rw [Function.iterate_succ_apply, lfsr_zero, ih]

theorem lfsr_iter_two_pow_mul (k v : Nat) : lfsrStep^[k] (2 ^ k * v) = v := by
  induction k generalizing v with
  | zero => simp
  | succ k ih =>
    rw [Function.iterate_succ_apply]
    have : 2 ^ (k + 1) * v = 2 * (2 ^ k * v) := by ring
    rw [this, lfsr_two_mul, ih]

theorem lfsr_Q : lfsrStep Q = 0 := by
  have h1 : Q % 2 = 1 := by unfold Q; omega
  have h2 : Q / 2 = P := by unfold Q; omega
  unfold lfsrStep
  rw [if_pos h1, h2, Nat.xor_self]

theorem lfsr_lt_32 {z : Nat} (h : z < 2 ^ 32) : lfsrStep z < 2 ^ 32 := by
  unfold lfsrStep
  have hP : P < 2 ^ 32 := by decide
  have hz : z / 2 < 2 ^ 32 := by omega
  split
  · exact Nat.xor_lt_two_pow hz hP
  · exact hz

theorem lfsr_iter_lt_32 {z : Nat} (h : z < 2 ^ 32) (k : Nat) : lfsrStep^[k] z < 2 ^ 32 := by
  induction k generalizing z with
  | zero => exact h
  | succ k ih => rw [Function.iterate_succ_apply]; exact ih (lfsr_lt_32 h)

theorem lfsr_shrink {z j : Nat} (h : z < 2 ^ (33 + j)) : lfsrStep z < 2 ^ (32 + j) := by
  unfold lfsrStep
  have hP : P < 2 ^ (32 + j) := by
    have h0 : P < 2 ^ 32 := by decide
    exact lt_of_lt_of_le h0 (Nat.pow_le_pow_right (by omega) (by omega))
  have hz : z / 2 < 2 ^ (32 + j) := by
    have he : 2 ^ (33 + j) = 2 * 2 ^ (32 + j) := by ring
    omega
  split
  · exact Nat.xor_lt_two_pow hz hP
  · exact hz

theorem lfsr_reduce {z : Nat} (j : Nat) (h : z < 2 ^ (32 + j)) : lfsrStep^[j] z < 2 ^ 32 := by
  induction j generalizing z with
  | zero => simpa using h
  | succ j ih =>
    rw [Function.iterate_succ_apply]
    have h' : z < 2 ^ (33 + j) := by
      have e : 32 + (j + 1) = 33 + j := by omega
      rwa [e] at h
    exact ih (lfsr_shrink h')

/-! ### Carryless multiplication -/

theorem xor_mix (b c x y : Nat) : (b ^^^ c) ^^^ (x ^^^ y) = (b ^^^ x) ^^^ (c ^^^ y) := by
  rw [Nat.xor_assoc, Nat.xor_assoc]
  congr 1
  rw [← Nat.xor_assoc, ← Nat.xor_assoc, Nat.xor_comm c x]

theorem clmulBits_zero_right (k a : Nat) : clmulBits k a 0 = 0 := by
  induction k generalizing a with
  | zero => rfl
  | succ k ih =>
    simp only [clmulBits]
    rw [ih]
    split <;> simp

theorem clmulBits_stable {a : Nat} (k : Nat) (h : a < 2 ^ k) (b : Nat) :
    clmulBits (k + 1) a b = clmulBits k a b := by
  induction k generalizing a with
  | zero =>
    have ha : a = 0 := by omega
    subst ha
    simp [clmulBits]
  | succ k ih =>
    have h2 : a / 2 < 2 ^ k := by omega
    rw [show clmulBits (k + 1 + 1) a b
        = (if a % 2 = 1 then b else 0) ^^^ 2 * clmulBits (k + 1) (a / 2) b from rfl, ih h2]
    rfl

theorem clmulBits_of_le {a : Nat} (k m : Nat) (h : a < 2 ^ k) (hkm : k ≤ m) (b : Nat) :
    clmulBits m a b = clmulBits k a b := by
  induction m with
  | zero =>
    have hk0 : k = 0 := by omega
    subst hk0; rfl
  | succ m ih =>
    rcases Nat.lt_or_ge k (m + 1) with hk | hk
    · have hm : k ≤ m := by omega
      have ha : a < 2 ^ m := lt_of_lt_of_le h (Nat.pow_le_pow_right (by omega) hm)
      rw [clmulBits_stable m ha, ih hm]
    · have hke : k = m + 1 := by omega
      subst hke; rfl

theorem clmulBits_one {a : Nat} (k : Nat) (h : a < 2 ^ k) : clmulBits k a 1 = a := by
  induction k generalizing a with
  | zero =>
    have ha : a = 0 := by omega
    subst ha; rfl
  | succ k ih =>
    have h2 : a / 2 < 2 ^ k := by omega
    simp only [clmulBits]
    rw [ih h2]
    rcases Nat.mod_two_eq_zero_or_one a with ha | ha
    · rw [if_neg (by omega), Nat.zero_xor]; omega
    · rw [if_pos ha, Nat.xor_comm]
      have hlt : (1 : Nat) < 2 ^ 1 := by omega
      have hx := two_pow_mul_add_eq_xor 1 hlt (a / 2)
      have h21 : (2 : Nat) ^ 1 = 2 := by norm_num
      rw [h21] at hx
      omega

theorem clmulBits_xor_right (k a b c : Nat) :
    clmulBits k a (b ^^^ c) = clmulBits k a b ^^^ clmulBits k a c := by
  induction k generalizing a with
  | zero => simp [clmulBits]
  | succ k ih =>
    simp only [clmulBits]
    rw [ih, two_mul_xor]
    rcases Nat.mod_two_eq_zero_or_one a with ha | ha
    · rw [if_neg (by omega), if_neg (by omega), if_neg (by omega),
        Nat.zero_xor, Nat.zero_xor, Nat.zero_xor]
    · rw [if_pos ha, if_pos ha, if_pos ha, xor_mix]

theorem clmulBits_two_mul (k a b : Nat) :
    clmulBits k a (2 * b) = 2 * clmulBits k a b := by
  induction k generalizing a with
  | zero => rfl
  | succ k ih =>
    simp only [clmulBits]
    rw [ih, two_mul_xor]
    rcases Nat.mod_two_eq_zero_or_one a with ha | ha
    · rw [if_neg (by omega), if_neg (by omega)]
    · rw [if_pos ha, if_pos ha]

theorem clmulBits_lt (k : Nat) {b j : Nat} (hb : b < 2 ^ j) (a : Nat) :
    clmulBits k a b < 2 ^ (k + j) := by
  induction k generalizing a with
  | zero =>
    have h0 : clmulBits 0 a b = 0 := rfl
    rw [h0]
    exact Nat.two_pow_pos (0 + j)
  | succ k ih =>
    simp only [clmulBits]
    have h1 : (if a % 2 = 1 then b else 0) < 2 ^ (k + 1 + j) := by
      have hb2 : b < 2 ^ (k + 1 + j) :=
        lt_of_lt_of_le hb (Nat.pow_le_pow_right (by omega) (by omega))
      split <;> omega
    have h2 : 2 * clmulBits k (a / 2) b < 2 ^ (k + 1 + j) := by
      have hi := ih (a / 2)
      have he : 2 ^ (k + 1 + j) = 2 * 2 ^ (k + j) := by ring
      omega
    exact Nat.xor_lt_two_pow h1 h2

theorem clmul_lt {a b : Nat} (ha : a < 2 ^ 32) (hb : b < 2 ^ 32) : clmul a b < 2 ^ 64 := by
  unfold clmul
  have h64 : a % 2 ^ 64 = a :=
    Nat.mod_eq_of_lt (lt_of_lt_of_le ha (Nat.pow_le_pow_right (by omega) (by omega)))
  rw [h64, clmulBits_of_le 32 64 ha (by omega)]
  exact clmulBits_lt 32 hb a

theorem clmul_Q_vanish {a : Nat} (k : Nat) (h : a < 2 ^ k) :
    lfsrStep^[k] (clmulBits k a Q) = 0 := by
  induction k generalizing a with
  | zero =>
    have ha : a = 0 := by omega
    subst ha; rfl
  | succ k ih =>
    simp only [clmulBits]
    rw [Function.iterate_succ_apply, lfsr_xor, lfsr_two_mul]
    have hq : lfsrStep (if a % 2 = 1 then Q else 0) = 0 := by
      split
      · exact lfsr_Q
      · exact lfsr_zero
    rw [hq, Nat.zero_xor]
    exact ih (by omega)

theorem clmul_Q_zero {a j : Nat} (ha : a < 2 ^ 32) (hj : 32 ≤ j) :
    lfsrStep^[j] (clmul a Q) = 0 := by
  unfold clmul
  have h64 : a % 2 ^ 64 = a :=
    Nat.mod_eq_of_lt (lt_of_lt_of_le ha (Nat.pow_le_pow_right (by omega) (by omega)))
  rw [h64, clmulBits_of_le 32 64 ha (by omega)]
  have hsplit : j = (j - 32) + 32 := by omega
  rw [hsplit, Function.iterate_add_apply, clmul_Q_vanish 32 ha, lfsr_iter_zero]

theorem clmul_lfsr_peel {a : Nat} (ha : a < 2 ^ 32) {j : Nat} (hj : 32 ≤ j) (b : Nat) :
    lfsrStep^[j] (clmul a (lfsrStep b)) = lfsrStep^[j + 1] (clmul a b) := by
  have hstep : lfsrStep^[j + 1] (2 * clmul a (lfsrStep b))
      = lfsrStep^[j] (clmul a (lfsrStep b)) := by
    rw [Function.iterate_succ_apply, lfsr_two_mul]
  rw [← hstep]
  have hcl : 2 * clmul a (lfsrStep b) = clmul a (2 * lfsrStep b) := by
    unfold clmul; rw [clmulBits_two_mul]
  rw [hcl]
  have h1lt : (1 : Nat) < 2 ^ 1 := by omega
  have h21 : (2 : Nat) ^ 1 = 2 := by norm_num
  rcases Nat.mod_two_eq_zero_or_one b with hb | hb
  · have h2 : 2 * lfsrStep b = b := by
      unfold lfsrStep; rw [if_neg (by omega)]; omega
    rw [h2]
  · have h2 : 2 * lfsrStep b = b ^^^ Q := by
      unfold lfsrStep
      rw [if_pos hb, two_mul_xor]
      have hb2 : 2 * (b / 2) = b ^^^ 1 := by
        have hx := two_pow_mul_add_eq_xor 1 h1lt (b / 2)
        rw [h21] at hx
        have hbb : b = 2 * (b / 2) + 1 := by omega
        conv_rhs => rw [hbb]
        rw [hx, Nat.xor_assoc, Nat.xor_self, Nat.xor_zero]
      have hq2 : Q = 2 * P ^^^ 1 := by
        have hx := two_pow_mul_add_eq_xor 1 h1lt P
        rw [h21] at hx
        unfold Q
        exact hx
      rw [hb2, hq2, Nat.xor_assoc, Nat.xor_comm 1 (2 * P), ← Nat.xor_assoc]
    rw [h2]
    rw [show clmul a (b ^^^ Q) = clmul a b ^^^ clmul a Q from
        clmulBits_xor_right 64 (a % 2 ^ 64) b Q]
    rw [lfsr_iter_xor, clmul_Q_zero ha (by omega), Nat.xor_zero]

theorem clmul_lfsr_iter {a : Nat} (ha : a < 2 ^ 32) (s : Nat) : ∀ j b, 32 ≤ j →
    lfsrStep^[j] (clmul a (lfsrStep^[s] b)) = lfsrStep^[j + s] (clmul a b) := by
  induction s with
  | zero => intro j b _; rfl
  | succ s ih =>
    intro j b hj
    rw [Function.iterate_succ_apply, ih j (lfsrStep b) hj, clmul_lfsr_peel ha (by omega)]
    have he : j + s + 1 = j + (s + 1) := by omega
    rw [he]

theorem clmul_key {a : Nat} (ha : a < 2 ^ 32) (m : Nat) :
    lfsrStep^[64] (clmul a (lfsrStep^[m] 1)) = lfsrStep^[64 + m] a := by
  rw [clmul_lfsr_iter ha m 64 1 (by omega)]
  have h1 : clmul a 1 = a := by
    unfold clmul
    have h64 : a % 2 ^ 64 = a :=
      Nat.mod_eq_of_lt (lt_of_lt_of_le ha (Nat.pow_le_pow_right (by omega) (by omega)))
    rw [h64]
    exact clmulBits_one 64 (lt_of_lt_of_le ha (Nat.pow_le_pow_right (by omega) (by omega)))
  rw [h1]

/-! ### NativeStep and CRC-state lemmas -/

theorem rd8_lt (mem : Nat → Nat) (p : Nat) : rd8 mem p < 2 ^ 8 := by
  unfold rd8
  exact Nat.mod_lt _ (by omega)

theorem rd64_lt (mem : Nat → Nat) (p : Nat) : rd64 mem p < 2 ^ 64 := by
  unfold rd64
  have h0 := rd8_lt mem p
  have h1 := rd8_lt mem (p + 1)
  have h2 := rd8_lt mem (p + 2)
  have h3 := rd8_lt mem (p + 3)
  have h4 := rd8_lt mem (p + 4)
  have h5 := rd8_lt mem (p + 5)
  have h6 := rd8_lt mem (p + 6)
  have h7 := rd8_lt mem (p + 7)
  norm_num at h0 h1 h2 h3 h4 h5 h6 h7 ⊢
  omega

theorem step8_lt {b : Nat} (s : Nat) (hb : b < 2 ^ 32) : step8 s b < 2 ^ 32 := by
  unfold step8
  have hs : s % 2 ^ 32 < 2 ^ 32 := Nat.mod_lt _ (by norm_num)
  exact lfsr_iter_lt_32 (Nat.xor_lt_two_pow hs hb) 8

theorem step64_lt (s w : Nat) : step64 s w < 2 ^ 32 := by
  unfold step64
  have hs : s % 2 ^ 32 < 2 ^ 32 := Nat.mod_lt _ (by norm_num)
  have hw : w % 2 ^ 64 < 2 ^ 64 := Nat.mod_lt _ (by norm_num)
  have hx : s % 2 ^ 32 ^^^ w % 2 ^ 64 < 2 ^ 64 := by
    have hs64 : s % 2 ^ 32 < 2 ^ 64 := lt_of_lt_of_le hs (by norm_num)
    exact Nat.xor_lt_two_pow hs64 hw
  have h64 : (64 : Nat) = 32 + 32 := by omega
  rw [h64, Function.iterate_add_apply]
  exact lfsr_iter_lt_32 (lfsr_reduce 32 hx) 32

theorem bytesAt_lt (mem : Nat → Nat) (p len : Nat) : ∀ b ∈ bytesAt mem p len, b < 2 ^ 8 := by
  induction len generalizing p with
  | zero => intro b hb; simp [bytesAt] at hb
  | succ len ih =>
    intro b hb
    simp only [bytesAt, List.mem_cons] at hb
    rcases hb with hb | hb
    · subst hb; exact rd8_lt mem p
    · exact ih (p + 1) b hb

theorem bytesAt_length (mem : Nat → Nat) (p len : Nat) : (bytesAt mem p len).length = len := by
  induction len generalizing p with
  | zero => rfl
  | succ len ih => simp [bytesAt, ih]

theorem bytesAt_append (mem : Nat → Nat) (p m k : Nat) :
    bytesAt mem p (m + k) = bytesAt mem p m ++ bytesAt mem (p + m) k := by
  induction m generalizing p with
  | zero => simp [bytesAt]
  | succ m ih =>
    have he : m + 1 + k = (m + k) + 1 := by omega
    rw [he]
    show rd8 mem p :: bytesAt mem (p + 1) (m + k) = _
    rw [ih (p + 1)]
    have he2 : p + 1 + m = p + (m + 1) := by omega
    rw [he2]
    rfl

theorem wordsAt_append (mem : Nat → Nat) (p m k : Nat) :
    wordsAt mem p (m + k) = wordsAt mem p m ++ wordsAt mem (p + 8 * m) k := by
  induction m generalizing p with
  | zero => simp [wordsAt]
  | succ m ih =>
    have he : m + 1 + k = (m + k) + 1 := by omega
    rw [he]
    show rd64 mem p :: wordsAt mem (p + 8) (m + k) = _
    rw [ih (p + 8)]
    have he2 : p + 8 + 8 * m = p + 8 * (m + 1) := by omega
    rw [he2]
    rfl

theorem wordsAt_length (mem : Nat → Nat) (p n : Nat) : (wordsAt mem p n).length = n := by
  induction n generalizing p with
  | zero => rfl
  | succ n ih => simp [wordsAt, ih]

theorem wordsAt_snoc (mem : Nat → Nat) (p k : Nat) :
    wordsAt mem p (k + 1) = wordsAt mem p k ++ [rd64 mem (p + 8 * k)] := by
  rw [wordsAt_append mem p k 1]
  rfl

theorem crcBytes_nil (c : Nat) : crcBytes c [] = c := by
  unfold crcBytes; rw [List.foldl_nil]

theorem crcBytes_cons (c b : Nat) (bs : List Nat) :
    crcBytes c (b :: bs) = crcBytes (step8 c b) bs := by
  unfold crcBytes; rw [List.foldl_cons]

theorem crcWords_nil (c : Nat) : crcWords c [] = c := by
  unfold crcWords; rw [List.foldl_nil]

theorem crcWords_cons (c w : Nat) (ws : List Nat) :
    crcWords c (w :: ws) = crcWords (step64 c w) ws := by
  unfold crcWords; rw [List.foldl_cons]


theorem crcBytes_append (c : Nat) (l1 l2 : List Nat) :
    crcBytes c (l1 ++ l2) = crcBytes (crcBytes c l1) l2 := by
  unfold crcBytes
  exact List.foldl_append step8 c l1 l2

theorem crcWords_append (c : Nat) (l1 l2 : List Nat) :
    crcWords c (l1 ++ l2) = crcWords (crcWords c l1) l2 := by
  unfold crcWords
  exact List.foldl_append step64 c l1 l2

theorem crcBytes_lt {c : Nat} (hc : c < 2 ^ 32) {bs : List Nat}
    (hbs : ∀ b ∈ bs, b < 2 ^ 8) : crcBytes c bs < 2 ^ 32 := by
  induction bs generalizing c with
  | nil => exact hc
  | cons b bs ih =>
    rw [crcBytes_cons]
    have hb : b < 2 ^ 32 := by
      have := hbs b (by simp)
      omega
    exact ih (step8_lt c hb) (fun x hx => hbs x (by simp [hx]))

theorem valLE_lt {bs : List Nat} (hbs : ∀ b ∈ bs, b < 2 ^ 8) :
    valLE bs < 2 ^ (8 * bs.length) := by
  induction bs with
  | nil => simp [valLE]
  | cons b bs ih =>
    have hb : b < 2 ^ 8 := hbs b (by simp)
    have ht : valLE bs < 2 ^ (8 * bs.length) := ih (fun x hx => hbs x (by simp [hx]))
    show b + 2 ^ 8 * valLE bs < 2 ^ (8 * (bs.length + 1))
    have he : 2 ^ (8 * (bs.length + 1)) = 2 ^ 8 * 2 ^ (8 * bs.length) := by
      rw [← pow_add]
      ring_nf
    rw [he]
    calc b + 2 ^ 8 * valLE bs < 2 ^ 8 * (valLE bs + 1) := by omega
    _ ≤ 2 ^ 8 * 2 ^ (8 * bs.length) := by
        have : valLE bs + 1 ≤ 2 ^ (8 * bs.length) := ht
        exact Nat.mul_le_mul_left _ this

theorem rd64_eq_valLE (mem : Nat → Nat) (p : Nat) :
    rd64 mem p = valLE (bytesAt mem p 8) := by
  simp only [bytesAt, valLE, rd64]
  norm_num

theorem crcBytes_eq_iter {bs : List Nat} (hbs : ∀ b ∈ bs, b < 2 ^ 8) :
    ∀ c, c < 2 ^ 32 → crcBytes c bs = lfsrStep^[8 * bs.length] (c ^^^ valLE bs) := by
  induction bs with
  | nil => intro c _; simp [crcBytes, valLE]
  | cons b bs ih =>
    intro c hc
    have hb : b < 2 ^ 8 := hbs b (by simp)
    have hs : step8 c b < 2 ^ 32 := step8_lt c (by omega)
    rw [crcBytes_cons]
    rw [ih (fun x hx => hbs x (by simp [hx])) (step8 c b) hs]
    show _ = lfsrStep^[8 * (bs.length + 1)] (c ^^^ (b + 2 ^ 8 * valLE bs))
    have hsplit : b + 2 ^ 8 * valLE bs = 2 ^ 8 * valLE bs ^^^ b := by
      rw [← two_pow_mul_add_eq_xor 8 hb (valLE bs)]
      omega
    have hassoc : c ^^^ (2 ^ 8 * valLE bs ^^^ b) = (c ^^^ b) ^^^ 2 ^ 8 * valLE bs := by
      rw [Nat.xor_comm (2 ^ 8 * valLE bs) b, ← Nat.xor_assoc]
    have hlen : 8 * (bs.length + 1) = 8 * bs.length + 8 := by omega
    have hstep : lfsrStep^[8] (c ^^^ b) = step8 c b := by
      unfold step8
      rw [Nat.mod_eq_of_lt hc]
    have hR : lfsrStep^[8 * (bs.length + 1)] (c ^^^ (b + 2 ^ 8 * valLE bs))
        = lfsrStep^[8 * bs.length] (step8 c b ^^^ valLE bs) := by
      rw [hsplit, hassoc, hlen, Function.iterate_add_apply, lfsr_iter_xor,
        lfsr_iter_two_pow_mul, hstep]
    rw [hR]

theorem step64_rd64 {c : Nat} (hc : c < 2 ^ 32) (mem : Nat → Nat) (p : Nat) :
    step64 c (rd64 mem p) = crcBytes c (bytesAt mem p 8) := by
  have hbs := bytesAt_lt mem p 8
  have hlen : (bytesAt mem p 8).length = 8 := bytesAt_length mem p 8
  rw [crcBytes_eq_iter hbs c hc, hlen, ← rd64_eq_valLE]
  unfold step64
  rw [Nat.mod_eq_of_lt hc, Nat.mod_eq_of_lt (rd64_lt mem p)]

theorem crcWords_eq_crcBytes {c : Nat} (hc : c < 2 ^ 32) (mem : Nat → Nat) (p k : Nat) :
    crcWords c (wordsAt mem p k) = crcBytes c (bytesAt mem p (8 * k)) := by
  induction k generalizing p c with
  | zero =>
    rw [show wordsAt mem p 0 = [] from rfl, show bytesAt mem p (8 * 0) = [] from rfl,
      crcWords_nil, crcBytes_nil]
  | succ k ih =>
    rw [show wordsAt mem p (k + 1) = rd64 mem p :: wordsAt mem (p + 8) k from rfl,
      crcWords_cons]
    rw [ih (step64_lt c (rd64 mem p)) (p + 8)]
    rw [step64_rd64 hc mem p]
    rw [← crcBytes_append]
    rw [← bytesAt_append]
    have he : 8 + 8 * k = 8 * (k + 1) := by omega
    rw [he]

theorem crcWords_lt {c : Nat} (hc : c < 2 ^ 32) (ws : List Nat) : crcWords c ws < 2 ^ 32 := by
  induction ws generalizing c with
  | nil => rw [crcWords_nil]; exact hc
  | cons w ws ih =>
    rw [crcWords_cons]
    exact ih (step64_lt c w)

theorem crcWords_seed (ws : List Nat) : ∀ s t, s < 2 ^ 32 → t < 2 ^ 32 →
    crcWords (s ^^^ t) ws = crcWords s ws ^^^ lfsrStep^[64 * ws.length] t := by
  induction ws with
  | nil =>
    intro s t _ _
    rw [crcWords_nil, crcWords_nil]
    rfl
  | cons w ws ih =>
    intro s t hs ht
    rw [crcWords_cons, crcWords_cons]
    have hstep : step64 (s ^^^ t) w = step64 s w ^^^ lfsrStep^[64] t := by
      unfold step64
      have hx : s ^^^ t < 2 ^ 32 := Nat.xor_lt_two_pow hs ht
      rw [Nat.mod_eq_of_lt hx, Nat.mod_eq_of_lt hs]
      have hre : s ^^^ t ^^^ w % 2 ^ 64 = (s ^^^ w % 2 ^ 64) ^^^ t := by
        rw [Nat.xor_assoc, Nat.xor_comm t (w % 2 ^ 64), ← Nat.xor_assoc]
      rw [hre, lfsr_iter_xor]
    rw [hstep]
    rw [ih (step64 s w) (lfsrStep^[64] t) (step64_lt s w) (lfsr_iter_lt_32 ht 64)]
    rw [← Function.iterate_add_apply]
    have he : 64 * ws.length + 64 = 64 * (w :: ws).length := by
      rw [List.length_cons]
      omega
    rw [he]

/-! ### The constant table -/

set_option maxRecDepth 100000

theorem g_lut_eq : g_lut_amd = lutLoop 128 1 := by decide

theorem lutLoop_getD : ∀ (k r i : Nat), i < k → (lutLoop k r).getD i 0 = lfsrStep^[64 * i] r := by
  intro k
  induction k with
  | zero => intro r i hi; omega
  | succ k ih =>
    intro r i hi
    rw [show lutLoop (k + 1) r = r :: lutLoop k (lfsrStep^[64] r) from rfl]
    cases i with
    | zero => rw [List.getD_cons_zero]; rfl
    | succ i =>
      rw [List.getD_cons_succ]
      rw [ih (lfsrStep^[64] r) i (by omega)]
      rw [← Function.iterate_add_apply]
      have he : 64 * i + 64 = 64 * (i + 1) := by omega
      rw [he]

theorem g_lut_getD {i : Nat} (h : i < 128) : g_lut_amd.getD i 0 = lfsrStep^[64 * i] 1 := by
  rw [g_lut_eq]
  exact lutLoop_getD 128 1 i h

theorem g_lut_entry_lt {i : Nat} (h : i < 128) : g_lut_amd.getD i 0 < 2 ^ 32 := by
  rw [g_lut_getD h]
  exact lfsr_iter_lt_32 (by norm_num) _

/-! ### The unrolled switch (two-lane advance) -/

theorem laneLoop_eq (mem : Nat → Nat) (pA pB : Nat) :
    ∀ (j : Nat) (cA cB : Nat), 8 * (j + 1) ≤ pA → 8 * (j + 1) ≤ pB →
    laneLoop mem pA pB (j + 1) cA cB
      = (crcWords cA (wordsAt mem (pA - 8 * (j + 1)) j),
         crcWords cB (wordsAt mem (pB - 8 * (j + 1)) j)) := by
  intro j
  induction j with
  | zero =>
    intro cA cB _ _
    rw [show laneLoop mem pA pB 1 cA cB = (cA, cB) from rfl]
    rw [show wordsAt mem (pA - 8 * 1) 0 = [] from rfl]
    rw [show wordsAt mem (pB - 8 * 1) 0 = [] from rfl]
    rw [crcWords_nil, crcWords_nil]
  | succ j ih =>
    intro cA cB hA hB
    rw [show laneLoop mem pA pB (j + 1 + 1) cA cB
      = laneLoop mem pA pB (j + 1)
          (step64 cA (rd64 mem (pA - 8 * (j + 2))))
          (step64 cB (rd64 mem (pB - 8 * (j + 2)))) from rfl]
    rw [ih _ _ (by omega) (by omega)]
    have hwA : wordsAt mem (pA - 8 * (j + 1 + 1)) (j + 1)
        = rd64 mem (pA - 8 * (j + 2)) :: wordsAt mem (pA - 8 * (j + 1)) j := by
      rw [show wordsAt mem (pA - 8 * (j + 1 + 1)) (j + 1)
        = rd64 mem (pA - 8 * (j + 1 + 1)) :: wordsAt mem (pA - 8 * (j + 1 + 1) + 8) j from rfl]
      have e1 : pA - 8 * (j + 1 + 1) = pA - 8 * (j + 2) := by omega
      have e2 : pA - 8 * (j + 1 + 1) + 8 = pA - 8 * (j + 1) := by omega
      rw [e1, e2]
    have hwB : wordsAt mem (pB - 8 * (j + 1 + 1)) (j + 1)
        = rd64 mem (pB - 8 * (j + 2)) :: wordsAt mem (pB - 8 * (j + 1)) j := by
      rw [show wordsAt mem (pB - 8 * (j + 1 + 1)) (j + 1)
        = rd64 mem (pB - 8 * (j + 1 + 1)) :: wordsAt mem (pB - 8 * (j + 1 + 1) + 8) j from rfl]
      have e1 : pB - 8 * (j + 1 + 1) = pB - 8 * (j + 2) := by omega
      have e2 : pB - 8 * (j + 1 + 1) + 8 = pB - 8 * (j + 1) := by omega
      rw [e1, e2]
    rw [hwA, hwB, crcWords_cons, crcWords_cons]

/-! ### Correctness of one bulk-folding iteration -/

theorem crcWords_snoc (c : Nat) (mem : Nat → Nat) (p k : Nat) :
    crcWords c (wordsAt mem p (k + 1))
      = step64 (crcWords c (wordsAt mem p k)) (rd64 mem (p + 8 * k)) := by
  rw [wordsAt_snoc, crcWords_append, crcWords_cons, crcWords_nil]

theorem merge_eq {cA cB w : Nat} (hcA : cA < 2 ^ 32) (hcB : cB < 2 ^ 32) (hw : w < 2 ^ 64)
    (m : Nat) :
    step64 cB (clmul cA (lfsrStep^[64 * m] 1) % 2 ^ 64 ^^^ w)
      = step64 cB w ^^^ lfsrStep^[64 * (m + 1)] cA := by
  have hK : lfsrStep^[64 * m] 1 < 2 ^ 32 := lfsr_iter_lt_32 (by norm_num) _
  have hclm : clmul cA (lfsrStep^[64 * m] 1) < 2 ^ 64 := clmul_lt hcA hK
  rw [Nat.mod_eq_of_lt hclm]
  unfold step64
  have hX : clmul cA (lfsrStep^[64 * m] 1) ^^^ w < 2 ^ 64 := Nat.xor_lt_two_pow hclm hw
  rw [Nat.mod_eq_of_lt hcB, Nat.mod_eq_of_lt hX, Nat.mod_eq_of_lt hw]
  have hre : cB ^^^ (clmul cA (lfsrStep^[64 * m] 1) ^^^ w)
      = (cB ^^^ w) ^^^ clmul cA (lfsrStep^[64 * m] 1) := by
    rw [Nat.xor_comm (clmul cA (lfsrStep^[64 * m] 1)) w, ← Nat.xor_assoc]
  rw [hre, lfsr_iter_xor, clmul_key hcA (64 * m)]
  have he : 64 + 64 * m = 64 * (m + 1) := by omega
  rw [he]

theorem bulkBody_expand (mem : Nat → Nat) (p n c : Nat) :
    bulkBody mem p n c
      = step64 (laneSwitch mem (p + 8 * n) (p + 8 * n + 8 * n) n c 0).2
          (clmul (step64 (laneSwitch mem (p + 8 * n) (p + 8 * n + 8 * n) n c 0).1
              (rd64 mem (p + 8 * n - 8))) (g_lut_amd.getD (n - 1) 0) % 2 ^ 64
            ^^^ rd64 mem (p + 8 * n + 8 * n - 8)) := rfl

theorem bulkBody_eq (mem : Nat → Nat) (p : Nat) {n c : Nat} (hn1 : 1 ≤ n) (hn : n ≤ 128)
    (hc : c < 2 ^ 32) : bulkBody mem p n c = crcBytes c (bytesAt mem p (16 * n)) := by
  obtain ⟨m, rfl⟩ : ∃ m, n = m + 1 := ⟨n - 1, by omega⟩
  rw [bulkBody_expand]
  have hlanes : laneSwitch mem (p + 8 * (m + 1)) (p + 8 * (m + 1) + 8 * (m + 1)) (m + 1) c 0
      = (crcWords c (wordsAt mem p m), crcWords 0 (wordsAt mem (p + 8 * (m + 1)) m)) := by
    unfold laneSwitch
    rw [if_pos hn]
    rw [laneLoop_eq mem _ _ m c 0 (by omega) (by omega)]
    have eA : p + 8 * (m + 1) - 8 * (m + 1) = p := by omega
    have eB : p + 8 * (m + 1) + 8 * (m + 1) - 8 * (m + 1) = p + 8 * (m + 1) := by omega
    rw [eA, eB]
  rw [hlanes]
  dsimp only
  have e1 : p + 8 * (m + 1) - 8 = p + 8 * m := by omega
  have e2 : p + 8 * (m + 1) + 8 * (m + 1) - 8 = p + 8 * (m + 1) + 8 * m := by omega
  have e3 : m + 1 - 1 = m := by omega
  rw [e1, e2, e3]
  rw [← crcWords_snoc c mem p m]
  rw [g_lut_getD (show m < 128 from by omega)]
  have hcA1 : crcWords c (wordsAt mem p (m + 1)) < 2 ^ 32 := crcWords_lt hc _
  have hcB : crcWords 0 (wordsAt mem (p + 8 * (m + 1)) m) < 2 ^ 32 := crcWords_lt (by norm_num) _
  rw [merge_eq hcA1 hcB (rd64_lt mem _) m]
  rw [← crcWords_snoc 0 mem (p + 8 * (m + 1)) m]
  have hseed := crcWords_seed (wordsAt mem (p + 8 * (m + 1)) (m + 1)) 0
    (crcWords c (wordsAt mem p (m + 1))) (by norm_num) hcA1
  rw [Nat.zero_xor, wordsAt_length] at hseed
  rw [← hseed]
  rw [← crcWords_append]
  rw [← wordsAt_append mem p (m + 1) (m + 1)]
  rw [crcWords_eq_crcBytes hc]
  have he2 : 8 * (m + 1 + (m + 1)) = 16 * (m + 1) := by omega
  rw [he2]

/-! ### Stage characterisations -/

theorem alignLoop_eq (mem : Nat → Nat) : ∀ (t p bytes c : Nat),
    alignLoop mem t p bytes c
      = (p + min t bytes, bytes - min t bytes, crcBytes c (bytesAt mem p (min t bytes))) := by
  intro t
  induction t with
  | zero =>
    intro p bytes c
    rw [show alignLoop mem 0 p bytes c = (p, bytes, c) from rfl]
    rw [Nat.zero_min, show bytesAt mem p 0 = [] from rfl, crcBytes_nil]
    rw [Nat.add_zero, Nat.sub_zero]
  | succ t ih =>
    intro p bytes c
    cases bytes with
    | zero =>
      rw [show alignLoop mem (t + 1) p 0 c = (p, 0, c) from rfl]
      rw [Nat.min_zero, show bytesAt mem p 0 = [] from rfl, crcBytes_nil]
      rw [Nat.add_zero, Nat.sub_zero]
    | succ b =>
      rw [show alignLoop mem (t + 1) p (b + 1) c
          = alignLoop mem t (p + 1) b (step8 c (rd8 mem p)) from rfl]
      rw [ih]
      rw [Nat.succ_min_succ]
      have h1 : p + 1 + min t b = p + (min t b + 1) := by omega
      have h2 : b - min t b = b + 1 - (min t b + 1) := by omega
      have h3 : crcBytes c (bytesAt mem p (min t b + 1))
          = crcBytes (step8 c (rd8 mem p)) (bytesAt mem (p + 1) (min t b)) := by
        rw [show bytesAt mem p (min t b + 1)
            = rd8 mem p :: bytesAt mem (p + 1) (min t b) from rfl, crcBytes_cons]
      rw [h1, h2, h3]

theorem wordTail_step (mem : Nat → Nat) (p c bytes : Nat) :
    wordTail mem p c (bytes + 8) = wordTail mem (p + 8) (step64 c (rd64 mem p)) bytes := rfl

theorem wordTail_small (mem : Nat → Nat) (p c : Nat) {bytes : Nat} (h : bytes < 8) :
    wordTail mem p c bytes = (p, bytes, c) := by
  interval_cases bytes <;> rfl

theorem wordTail_eq (mem : Nat → Nat) : ∀ (bytes p c : Nat),
    wordTail mem p c bytes
      = (p + 8 * (bytes / 8), bytes % 8, crcWords c (wordsAt mem p (bytes / 8))) := by
  intro bytes
  induction bytes using Nat.strong_induction_on with
  | _ bytes ih =>
    intro p c
    by_cases h8 : bytes < 8
    · rw [wordTail_small mem p c h8]
      have hd : bytes / 8 = 0 := by omega
      have hm : bytes % 8 = bytes := by omega
      rw [hd, hm, show wordsAt mem p 0 = [] from rfl, crcWords_nil]
      rw [Nat.mul_zero, Nat.add_zero]
    · obtain ⟨b, rfl⟩ : ∃ b, bytes = b + 8 := ⟨bytes - 8, by omega⟩
      rw [wordTail_step]
      rw [ih b (by omega) (p + 8) (step64 c (rd64 mem p))]
      have hd : (b + 8) / 8 = b / 8 + 1 := by omega
      have hm : (b + 8) % 8 = b % 8 := by omega
      have h1 : p + 8 + 8 * (b / 8) = p + 8 * (b / 8 + 1) := by omega
      have h3 : crcWords c (wordsAt mem p (b / 8 + 1))
          = crcWords (step64 c (rd64 mem p)) (wordsAt mem (p + 8) (b / 8)) := by
        rw [show wordsAt mem p (b / 8 + 1)
            = rd64 mem p :: wordsAt mem (p + 8) (b / 8) from rfl, crcWords_cons]
      rw [hd, hm, h1, h3]

theorem byteTail_eq (mem : Nat → Nat) : ∀ (bytes p c : Nat),
    byteTail mem p c bytes = crcBytes c (bytesAt mem p bytes) := by
  intro bytes
  induction bytes with
  | zero =>
    intro p c
    rw [show byteTail mem p c 0 = c from rfl, show bytesAt mem p 0 = [] from rfl, crcBytes_nil]
  | succ b ih =>
    intro p c
    rw [show byteTail mem p c (b + 1) = byteTail mem (p + 1) (step8 c (rd8 mem p)) b from rfl]
    rw [ih]
    rw [show bytesAt mem p (b + 1) = rd8 mem p :: bytesAt mem (p + 1) b from rfl, crcBytes_cons]

theorem seqTails_eq (mem : Nat → Nat) (p bytes : Nat) {c : Nat} (hc : c < 2 ^ 32) :
    seqTails mem p bytes c = crcBytes c (bytesAt mem p bytes) := by
  unfold seqTails
  rw [wordTail_eq]
  dsimp only
  rw [byteTail_eq]
  rw [crcWords_eq_crcBytes hc]
  rw [← crcBytes_append, ← bytesAt_append]
  have he : 8 * (bytes / 8) + bytes % 8 = bytes := by omega
  rw [he]

theorem bulkGo_small (mem : Nat → Nat) (fuel p bytes c : Nat) (h : bytes < LEAF_SIZE_AMD) :
    bulkGo mem fuel p bytes c = (p, bytes, c) := by
  cases fuel with
  | zero => rfl
  | succ fuel =>
    rw [show bulkGo mem (fuel + 1) p bytes c
        = if LEAF_SIZE_AMD ≤ bytes then
            bulkGo mem fuel (p + 16 * blockCount bytes) (bytes - 16 * blockCount bytes)
              (bulkBody mem p (blockCount bytes) c)
          else (p, bytes, c) from rfl]
    rw [if_neg (by omega)]

theorem bulkGo_step (mem : Nat → Nat) (fuel p bytes c : Nat) (h : LEAF_SIZE_AMD ≤ bytes) :
    bulkGo mem (fuel + 1) p bytes c
      = bulkGo mem fuel (p + 16 * blockCount bytes) (bytes - 16 * blockCount bytes)
          (bulkBody mem p (blockCount bytes) c) := by
  rw [show bulkGo mem (fuel + 1) p bytes c
      = if LEAF_SIZE_AMD ≤ bytes then
          bulkGo mem fuel (p + 16 * blockCount bytes) (bytes - 16 * blockCount bytes)
            (bulkBody mem p (blockCount bytes) c)
        else (p, bytes, c) from rfl]
  rw [if_pos h]

theorem blockCount_bounds {bytes : Nat} (h : LEAF_SIZE_AMD ≤ bytes) :
    7 ≤ blockCount bytes ∧ blockCount bytes ≤ 128 ∧ 16 * blockCount bytes ≤ bytes := by
  have hL : LEAF_SIZE_AMD = 112 := rfl
  rw [hL] at h
  unfold blockCount
  by_cases hb : bytes < 128 * 16
  · rw [if_pos hb, Nat.shiftRight_eq_div_pow]
    norm_num
    omega
  · rw [if_neg hb]
    omega

theorem bulkGo_seqTails (mem : Nat → Nat) : ∀ (fuel bytes p c : Nat), bytes ≤ fuel →
    c < 2 ^ 32 →
    seqTails mem (bulkGo mem fuel p bytes c).1 (bulkGo mem fuel p bytes c).2.1
        (bulkGo mem fuel p bytes c).2.2
      = crcBytes c (bytesAt mem p bytes) := by
  intro fuel
  induction fuel with
  | zero =>
    intro bytes p c hb hc
    have hb0 : bytes = 0 := by omega
    subst hb0
    rw [show bulkGo mem 0 p 0 c = (p, 0, c) from rfl]
    dsimp only
    exact seqTails_eq mem p 0 hc
  | succ fuel ih =>
    intro bytes p c hb hc
    by_cases h : LEAF_SIZE_AMD ≤ bytes
    · rw [bulkGo_step mem fuel p bytes c h]
      obtain ⟨h7, h128, hle⟩ := blockCount_bounds h
      have h1 : bytes - 16 * blockCount bytes ≤ fuel := by omega
      have hc' : bulkBody mem p (blockCount bytes) c < 2 ^ 32 := by
        rw [bulkBody_eq mem p (by omega) h128 hc]
        exact crcBytes_lt hc (bytesAt_lt mem p _)
      rw [ih (bytes - 16 * blockCount bytes) (p + 16 * blockCount bytes) _ h1 hc']
      rw [bulkBody_eq mem p (by omega) h128 hc]
      rw [← crcBytes_append, ← bytesAt_append]
      have he : 16 * blockCount bytes + (bytes - 16 * blockCount bytes) = bytes := by omega
      rw [he]
    · rw [bulkGo_small mem (fuel + 1) p bytes c (by omega)]
      dsimp only
      exact seqTails_eq mem p bytes hc

/-! ### The central correctness theorem for the folding engine -/

theorem option14_eq_crcBytes (mem : Nat → Nat) (M bytes prev : Nat) :
    option_14_golden_amd mem M bytes prev = crcBytes (prev % 2 ^ 32) (bytesAt mem M bytes) := by
  unfold option_14_golden_amd
  dsimp only
  rw [alignLoop_eq mem]
  dsimp only
  generalize (2 ^ 64 - M % 2 ^ 64) % 8 = t
  have hc0 : prev % 2 ^ 32 < 2 ^ 32 := Nat.mod_lt _ (by norm_num)
  have hc1 : crcBytes (prev % 2 ^ 32) (bytesAt mem M (min t bytes)) < 2 ^ 32 :=
    crcBytes_lt hc0 (bytesAt_lt mem M _)
  rw [bulkGo_seqTails mem (bytes - min t bytes) (bytes - min t bytes) (M + min t bytes) _
    (le_refl _) hc1]
  rw [← crcBytes_append, ← bytesAt_append]
  have he : min t bytes + (bytes - min t bytes) = bytes := by
    have := Nat.min_le_right t bytes
    omega
  rw [he]
  exact Nat.mod_eq_of_lt (crcBytes_lt hc0 (bytesAt_lt mem M bytes))

/-! ### The reference strategies -/

theorem naiveLoop_eq (mem : Nat → Nat) : ∀ (k p r : Nat), r < 2 ^ 32 →
    naiveLoop mem p r k = crcBytes r (bytesAt mem p k) := by
  intro k
  induction k with
  | zero =>
    intro p r _
    rw [show naiveLoop mem p r 0 = r from rfl, show bytesAt mem p 0 = [] from rfl, crcBytes_nil]
  | succ k ih =>
    intro p r hr
    rw [show naiveLoop mem p r (k + 1)
        = naiveLoop mem (p + 1) (lfsrStep^[8] (r ^^^ rd8 mem p)) k from rfl]
    have hsr : lfsrStep^[8] (r ^^^ rd8 mem p) = step8 r (rd8 mem p) := by
      unfold step8
      rw [Nat.mod_eq_of_lt hr]
    rw [hsr]
    have hb : rd8 mem p < 2 ^ 32 := by
      have := rd8_lt mem p
      omega
    rw [ih (p + 1) _ (step8_lt r hb)]
    rw [show bytesAt mem p (k + 1) = rd8 mem p :: bytesAt mem (p + 1) k from rfl, crcBytes_cons]

theorem option5_eq (mem : Nat → Nat) (M bytes : Nat) :
    option_5_naive_cpp mem M bytes = crcBytes 0 (bytesAt mem M bytes) := by
  unfold option_5_naive_cpp
  exact naiveLoop_eq mem bytes M 0 (by norm_num)

theorem hw8Loop_eq (mem : Nat → Nat) : ∀ (k p r : Nat),
    hw8Loop mem p r k = crcWords r (wordsAt mem p k) := by
  intro k
  induction k with
  | zero =>
    intro p r
    rw [show hw8Loop mem p r 0 = r from rfl, show wordsAt mem p 0 = [] from rfl, crcWords_nil]
  | succ k ih =>
    intro p r
    rw [show hw8Loop mem p r (k + 1)
        = hw8Loop mem (p + 8) (step64 r (rd64 mem p)) k from rfl]
    rw [ih (p + 8) _]
    rw [show wordsAt mem p (k + 1) = rd64 mem p :: wordsAt mem (p + 8) k from rfl, crcWords_cons]

theorem option12_eq (mem : Nat → Nat) (M bytes : Nat) :
    option_12_hardware_8_bytes mem M bytes
      = crcBytes 0 (bytesAt mem M (8 * (bytes >>> 3))) := by
  unfold option_12_hardware_8_bytes
  rw [hw8Loop_eq]
  rw [crcWords_eq_crcBytes (by norm_num)]
  exact Nat.mod_eq_of_lt (crcBytes_lt (by norm_num) (bytesAt_lt mem M _))

/-! ### Byte-content congruence -/

theorem bytesAt_congr (mem1 mem2 : Nat → Nat) : ∀ (len p1 p2 : Nat),
    (∀ i, i < len → rd8 mem1 (p1 + i) = rd8 mem2 (p2 + i)) →
    bytesAt mem1 p1 len = bytesAt mem2 p2 len := by
  intro len
  induction len with
  | zero => intro p1 p2 _; rfl
  | succ len ih =>
    intro p1 p2 h
    rw [show bytesAt mem1 p1 (len + 1) = rd8 mem1 p1 :: bytesAt mem1 (p1 + 1) len from rfl]
    rw [show bytesAt mem2 p2 (len + 1) = rd8 mem2 p2 :: bytesAt mem2 (p2 + 1) len from rfl]
    have h0 : rd8 mem1 p1 = rd8 mem2 p2 := by
      have := h 0 (by omega)
      simpa using this
    have ht : bytesAt mem1 (p1 + 1) len = bytesAt mem2 (p2 + 1) len := by
      apply ih
      intro i hi
      have := h (i + 1) (by omega)
      have e1 : p1 + (i + 1) = p1 + 1 + i := by omega
      have e2 : p2 + (i + 1) = p2 + 1 + i := by omega
      rwa [e1, e2] at this
    rw [h0, ht]

/-! ### The spec-side reference table (GF(2) exponentiation) -/

theorem g_lut_ref : g_lut_amd = (powChain 128 (polyMulX^[31] 1)).map bitrev32 := by decide

theorem powChain_length : ∀ (k q : Nat), (powChain k q).length = k := by
  intro k
  induction k with
  | zero => intro q; rfl
  | succ k ih =>
    intro q
    rw [show powChain (k + 1) q = q :: powChain k (polyMulX^[64] q) from rfl]
    rw [List.length_cons, ih]

theorem powChain_getD : ∀ (k q i : Nat), i < k →
    (powChain k q).getD i 0 = polyMulX^[64 * i] q := by
  intro k
  induction k with
  | zero => intro q i hi; omega
  | succ k ih =>
    intro q i hi
    rw [show powChain (k + 1) q = q :: powChain k (polyMulX^[64] q) from rfl]
    cases i with
    | zero => rw [List.getD_cons_zero]; rfl
    | succ i =>
      rw [List.getD_cons_succ]
      rw [ih (polyMulX^[64] q) i (by omega)]
      rw [← Function.iterate_add_apply]
      have he : 64 * i + 64 = 64 * (i + 1) := by omega
      rw [he]

theorem getD_map_of_lt (f : Nat → Nat) : ∀ (l : List Nat) (i : Nat), i < l.length →
    (l.map f).getD i 0 = f (l.getD i 0) := by
  intro l
  induction l with
  | nil => intro i hi; simp at hi
  | cons x xs ih =>
    intro i hi
    cases i with
    | zero => rw [List.map_cons, List.getD_cons_zero, List.getD_cons_zero]
    | succ i =>
      rw [List.map_cons, List.getD_cons_succ, List.getD_cons_succ]
      exact ih i (by simpa using hi)

theorem lutLoop_length : ∀ (k r : Nat), (lutLoop k r).length = k := by
  intro k
  induction k with
  | zero => intro r; rfl
  | succ k ih =>
    intro r
    rw [show lutLoop (k + 1) r = r :: lutLoop k (lfsrStep^[64] r) from rfl]
    rw [List.length_cons, ih]

theorem shiftLeft_one (n : Nat) : n <<< 1 = 2 * n := by
  rw [Nat.shiftLeft_eq]
  omega

/-! ### Claim theorems -/

/-- C1: for every byte memory, every buffer address (hence any alignment)
and every length, the two-lane folding engine with seed 0 returns exactly
the same 32-bit value as the bit-serial reference:
`option_14_golden_amd(b, length, 0) == option_5_naive_cpp(b, length)`. -/
theorem c1_folding_matches_bit_serial (mem : Nat → Nat) (M bytes : Nat) :
    option_14_golden_amd mem M bytes 0 = option_5_naive_cpp mem M bytes := by
  rw [option14_eq_crcBytes, option5_eq, Nat.zero_mod]

theorem bulkBodyClaim_expand (mem : Nat → Nat) (p n c : Nat) :
    bulkBodyClaim mem p n c
      = step64 (laneSwitch mem (p + 8 * n) (p + 8 * n + 8 * n) n c 0).2
          (clmul (g_lut_amd.getD (n - 1) 0)
              (laneSwitch mem (p + 8 * n) (p + 8 * n + 8 * n) n c 0).1 % 2 ^ 64
            ^^^ rd64 mem (p + 8 * n - 8)) := rfl

/-- C2 (counterexample): the claim's merge formula — carryless-multiply
`ConstantTable[n-1]` against lane A's accumulator before its final word and
XOR lane A's final word — disagrees with the merge the code computes,
already at the all-ones buffer with `n = 7`, seed 0 and base address 0
(the code yields `0xfe870f7c`, the claim's formula `0xb8cedccc`). -/
theorem c2_claim_counterexample :
    bulkBody (fun _ => 1) 0 7 0 ≠ bulkBodyClaim (fun _ => 1) 0 7 0 := by
  intro h
  rw [bulkBody_expand, bulkBodyClaim_expand] at h
  have e4 : 0 + 8 * 7 + 8 * 7 - 8 = 104 := by norm_num
  have e2 : 0 + 8 * 7 + 8 * 7 = 112 := by norm_num
  have e3 : 0 + 8 * 7 - 8 = 48 := by norm_num
  have e1 : 0 + 8 * 7 = 56 := by norm_num
  have e5 : 7 - 1 = 6 := by norm_num
  rw [e4, e2, e3, e1, e5] at h
  have hlane : laneSwitch (fun _ => 1) 56 112 7 0 0 = (0xadccb6fa, 0xadccb6fa) := by decide
  rw [hlane] at h
  dsimp only at h
  have hrd48 : rd64 (fun _ => 1) 48 = 0x0101010101010101 := by decide
  have hrd104 : rd64 (fun _ => 1) 104 = 0x0101010101010101 := by decide
  have hlut : g_lut_amd.getD 6 0 = 0x1c291d04 := by decide
  rw [hrd48, hrd104, hlut] at h
  have hs1 : step64 0xadccb6fa 0x0101010101010101 = 0x91a92b7a := by decide
  rw [hs1] at h
  have hc1 : clmul 0x91a92b7a 0x1c291d04 % 2 ^ 64 = 0xfc759c617244fe8 := by decide
  have hc2 : clmul 0x1c291d04 0xadccb6fa % 2 ^ 64 = 0xd15eb96a1edb9e8 := by decide
  rw [hc1, hc2] at h
  have hx1 : (0xfc759c617244fe8 : Nat) ^^^ 0x0101010101010101 = 0xec658c716254ee9 := by
    decide
  have hx2 : (0xd15eb96a1edb9e8 : Nat) ^^^ 0x0101010101010101 = 0xc14ea97a0ecb8e9 := by
    decide
  rw [hx1, hx2] at h
  have hs2 : step64 0xadccb6fa 0xec658c716254ee9 = 0xfe870f7c := by decide
  have hs3 : step64 0xadccb6fa 0xc14ea97a0ecb8e9 = 0xb8cedccc := by decide
  rw [hs2, hs3] at h
  exact absurd h (by decide)

/-- C2 (amended): in every bulk-folding iteration the merge is computed
with lane A's accumulator advanced over ALL `n` of its words (the final
native step on lane A's last word happens before the multiply), and the
low 64 bits of the carryless product are XORed with the final word of lane
B's range; the new accumulator is `step64` of lane B's accumulator (which
holds `n - 1` words) with that seed. -/
theorem c2_merge_formula_amended (mem : Nat → Nat) (p c n : Nat) (hn1 : 1 ≤ n)
    (hn : n ≤ 128) :
    bulkBody mem p n c
      = step64 (crcWords 0 (wordsAt mem (p + 8 * n) (n - 1)))
          (clmul (crcWords c (wordsAt mem p n)) (g_lut_amd.getD (n - 1) 0) % 2 ^ 64
            ^^^ rd64 mem (p + 8 * n + 8 * n - 8)) := by
  obtain ⟨m, rfl⟩ : ∃ m, n = m + 1 := ⟨n - 1, by omega⟩
  rw [bulkBody_expand]
  have hlanes : laneSwitch mem (p + 8 * (m + 1)) (p + 8 * (m + 1) + 8 * (m + 1)) (m + 1) c 0
      = (crcWords c (wordsAt mem p m), crcWords 0 (wordsAt mem (p + 8 * (m + 1)) m)) := by
    unfold laneSwitch
    rw [if_pos hn]
    rw [laneLoop_eq mem _ _ m c 0 (by omega) (by omega)]
    have eA : p + 8 * (m + 1) - 8 * (m + 1) = p := by omega
    have eB : p + 8 * (m + 1) + 8 * (m + 1) - 8 * (m + 1) = p + 8 * (m + 1) := by omega
    rw [eA, eB]
  rw [hlanes]
  dsimp only
  have e1 : p + 8 * (m + 1) - 8 = p + 8 * m := by omega
  have e3 : m + 1 - 1 = m := by omega
  rw [e1, e3]
  rw [← crcWords_snoc c mem p m]

/-- C2 (witness): the amended merge characterisation at a concrete
instance (`n = 2`, all-ones memory, base 0, seed 0). -/
theorem c2_merge_formula_amended_witness :
    1 ≤ 2 ∧ 2 ≤ 128
    ∧ bulkBody (fun _ => 1) 0 2 0
        = step64 (crcWords 0 (wordsAt (fun _ => 1) (0 + 8 * 2) (2 - 1)))
            (clmul (crcWords 0 (wordsAt (fun _ => 1) 0 2)) (g_lut_amd.getD (2 - 1) 0) % 2 ^ 64
              ^^^ rd64 (fun _ => 1) (0 + 8 * 2 + 8 * 2 - 8)) :=
  ⟨by decide, by decide, c2_merge_formula_amended (fun _ => 1) 0 0 2 (by decide) (by decide)⟩

/-- C3 (counterexample): entry 0 of the table built by the builder is the
value `0x00000001` — the multiplicative identity value of the
representation — and it differs from the reflected encoding of
`x^64 mod P(x)` demanded by the claim. -/
theorem c3_claim_counterexample :
    (compute_golden_lut_amd 64).getD 0 0 = 1
    ∧ (compute_golden_lut_amd 64).getD 0 0 ≠ specLutEntry 0 := by decide

/-- C3 (amended): entry `i` of the constant table (both the builder's
output and the embedded `g_lut_amd`) equals the reflected encoding of
`x^(64*i + 31) mod P(x)` computed in GF(2)[x] — that is, `x^(64*(i+1))`
only up to the implicit `x^33` factor of the reflected-clmul convention —
and in particular entry 0 is the value `0x00000001`, not the encoding of
`x^64 mod P(x)`. -/
theorem c3_table_entries_amended (i : Nat) (h : i < 128) :
    (compute_golden_lut_amd 64).getD i 0 = lutEntryRef i
    ∧ g_lut_amd.getD i 0 = lutEntryRef i := by
  have hbuilder : compute_golden_lut_amd 64 = g_lut_amd := by
    unfold compute_golden_lut_amd
    rw [show (64 : Nat) <<< 1 = 128 from rfl]
    rw [← g_lut_eq]
  have hmain : g_lut_amd.getD i 0 = lutEntryRef i := by
    rw [g_lut_ref]
    rw [getD_map_of_lt bitrev32 _ i (by rw [powChain_length]; exact h)]
    rw [powChain_getD 128 _ i h]
    unfold lutEntryRef xPowMod
    rw [← Function.iterate_add_apply]
  exact ⟨by rw [hbuilder]; exact hmain, hmain⟩

/-- C3 (witness): the amended table characterisation at entry 1. -/
theorem c3_table_entries_amended_witness :
    1 < 128
    ∧ ((compute_golden_lut_amd 64).getD 1 0 = lutEntryRef 1
       ∧ g_lut_amd.getD 1 0 = lutEntryRef 1) :=
  ⟨by decide, c3_table_entries_amended 1 (by decide)⟩

/-- C4: seed composability — the folding CRC of a concatenation computed
with seed 0 equals the folding CRC of the second part seeded with the
folding CRC of the first part, for any placement of the second part whose
byte contents agree with the concatenation's tail. -/
theorem c4_seed_composability (mem mem2 : Nat → Nat) (M M2 len1 len2 : Nat)
    (h : ∀ i, i < len2 → rd8 mem2 (M2 + i) = rd8 mem (M + len1 + i)) :
    option_14_golden_amd mem M (len1 + len2) 0
      = option_14_golden_amd mem2 M2 len2 (option_14_golden_amd mem M len1 0) := by
  rw [option14_eq_crcBytes, option14_eq_crcBytes, option14_eq_crcBytes, Nat.zero_mod]
  have hlt : crcBytes 0 (bytesAt mem M len1) < 2 ^ 32 :=
    crcBytes_lt (by norm_num) (bytesAt_lt mem M len1)
  rw [Nat.mod_eq_of_lt hlt]
  rw [bytesAt_append, crcBytes_append]
  congr 1
  exact (bytesAt_congr mem2 mem len2 M2 (M + len1) h).symm

/-- C4 (witness): streaming continuation at a concrete two-byte split. -/
theorem c4_seed_composability_witness :
    (∀ i, i < 1 → rd8 (fun _ => 0) (5 + i) = rd8 (fun _ => 0) (0 + 1 + i))
    ∧ option_14_golden_amd (fun _ => 0) 0 (1 + 1) 0
        = option_14_golden_amd (fun _ => 0) 5 1 (option_14_golden_amd (fun _ => 0) 0 1 0) :=
  ⟨by decide, c4_seed_composability (fun _ => 0) (fun _ => 0) 0 5 1 1 (by decide)⟩

/-- C5 (counterexample): on a single-byte buffer holding 1 the 8-byte
hardware strategy returns 0 (it processes `bytes >> 3 = 0` words and
ignores the tail byte) while the bit-serial reference does not. -/
theorem c5_claim_counterexample :
    option_12_hardware_8_bytes (fun _ => 1) 0 1 ≠ option_5_naive_cpp (fun _ => 1) 0 1 := by
  decide

/-- C5 (amended): the single-lane 8-byte hardware strategy agrees with the
bit-serial reference exactly on buffers whose length is a multiple of 8
(the loop consumes `8 * (bytes >> 3)` bytes and drops the remainder). -/
theorem c5_hardware8_amended (mem : Nat → Nat) (M bytes : Nat) (h : bytes % 8 = 0) :
    option_12_hardware_8_bytes mem M bytes = option_5_naive_cpp mem M bytes := by
  rw [option12_eq, option5_eq]
  have he : 8 * (bytes >>> 3) = bytes := by
    rw [Nat.shiftRight_eq_div_pow]
    omega
  rw [he]

/-- C5 (witness): agreement at an 8-byte buffer. -/
theorem c5_hardware8_amended_witness :
    8 % 8 = 0
    ∧ option_12_hardware_8_bytes (fun _ => 2) 0 8 = option_5_naive_cpp (fun _ => 2) 0 8 :=
  ⟨by decide, c5_hardware8_amended (fun _ => 2) 0 8 (by decide)⟩

/-- C6: a buffer shorter than the leaf threshold `LEAF_SIZE_AMD = 112`
never executes a bulk-folding iteration: the folding engine coincides with
the engine with the bulk loop removed (alignment prefix, word tail and
byte tail only — pure sequential native stepping from the seed). -/
theorem c6_small_buffers_skip_bulk (mem : Nat → Nat) (M bytes prev : Nat)
    (h : bytes < LEAF_SIZE_AMD) :
    option_14_golden_amd mem M bytes prev = option_14_no_bulk mem M bytes prev := by
  unfold option_14_golden_amd option_14_no_bulk
  dsimp only
  rw [alignLoop_eq mem]
  dsimp only
  rw [bulkGo_small mem _ _ _ _
    (show bytes - min ((2 ^ 64 - M % 2 ^ 64) % 8) bytes < LEAF_SIZE_AMD from by omega)]

/-- C6 (witness): a 3-byte buffer at an unaligned address. -/
theorem c6_small_buffers_skip_bulk_witness :
    3 < LEAF_SIZE_AMD
    ∧ option_14_golden_amd (fun _ => 0) 2 3 0 = option_14_no_bulk (fun _ => 0) 2 3 0 :=
  ⟨by decide, c6_small_buffers_skip_bulk (fun _ => 0) 2 3 0 (by decide)⟩

/-- C7: the constant-table builder is deterministic and prefix-stable:
`compute_golden_lut_amd n` equals itself, has length `2 * n`, and each of
its entries agrees with the corresponding entry of the table built for any
larger `maxBlocks`. -/
theorem c7_table_deterministic_stable (n m i : Nat) (hnm : n < m) (hi : i < 2 * n) :
    compute_golden_lut_amd n = compute_golden_lut_amd n
    ∧ (compute_golden_lut_amd n).length = 2 * n
    ∧ (compute_golden_lut_amd n).getD i 0 = (compute_golden_lut_amd m).getD i 0 := by
  refine ⟨rfl, ?_, ?_⟩
  · unfold compute_golden_lut_amd
    rw [lutLoop_length, shiftLeft_one]
  · unfold compute_golden_lut_amd
    rw [lutLoop_getD (n <<< 1) 1 i (by rw [shiftLeft_one]; omega)]
    rw [lutLoop_getD (m <<< 1) 1 i (by rw [shiftLeft_one]; omega)]

/-- C7 (witness): determinism and prefix stability at `n = 1`, `m = 2`,
entry 0. -/
theorem c7_table_deterministic_stable_witness :
    1 < 2 ∧ 0 < 2 * 1
    ∧ (compute_golden_lut_amd 1 = compute_golden_lut_amd 1
       ∧ (compute_golden_lut_amd 1).length = 2 * 1
       ∧ (compute_golden_lut_amd 1).getD 0 0 = (compute_golden_lut_amd 2).getD 0 0) :=
  ⟨by decide, by decide, c7_table_deterministic_stable 1 2 0 (by decide) (by decide)⟩

/-- C8: whenever the bulk loop guard holds (`bytes ≥ LEAF_SIZE_AMD`), the
chosen block count `n = blockCount bytes` satisfies `7 ≤ n ≤ 128` and the
table index `n - 1` is strictly within the bounds of the 128-entry
embedded table `g_lut_amd`. -/
theorem c8_block_count_in_table_bounds (bytes : Nat) (h : LEAF_SIZE_AMD ≤ bytes) :
    7 ≤ blockCount bytes ∧ blockCount bytes ≤ 128
    ∧ blockCount bytes - 1 < g_lut_amd.length := by
  obtain ⟨h7, h128, _⟩ := blockCount_bounds h
  have hlen : g_lut_amd.length = 128 := by decide
  exact ⟨h7, h128, by rw [hlen]; omega⟩

/-- C8 (witness): the bounds at the smallest bulk-eligible length. -/
theorem c8_block_count_in_table_bounds_witness :
    LEAF_SIZE_AMD ≤ 112
    ∧ (7 ≤ blockCount 112 ∧ blockCount 112 ≤ 128
       ∧ blockCount 112 - 1 < g_lut_amd.length) :=
  ⟨by decide, c8_block_count_in_table_bounds 112 (by decide)⟩

/-- C9: alignment invariance — if two byte memories hold the same logical
byte contents at two arbitrary starting addresses (any residues modulo 8),
the folding engine returns the same result for the same length and seed. -/
theorem c9_alignment_invariance (mem1 mem2 : Nat → Nat) (M1 M2 bytes prev : Nat)
    (h : ∀ i, i < bytes → rd8 mem1 (M1 + i) = rd8 mem2 (M2 + i)) :
    option_14_golden_amd mem1 M1 bytes prev = option_14_golden_amd mem2 M2 bytes prev := by
  rw [option14_eq_crcBytes, option14_eq_crcBytes,
    bytesAt_congr mem1 mem2 bytes M1 M2 h]

/-- C9 (witness): equal contents at addresses 1 and 4 (residues 1 and 4
modulo 8) give equal results. -/
theorem c9_alignment_invariance_witness :
    (∀ i, i < 2 → rd8 (fun _ => 9) (1 + i) = rd8 (fun _ => 9) (4 + i))
    ∧ option_14_golden_amd (fun _ => 9) 1 2 7 = option_14_golden_amd (fun _ => 9) 4 2 7 :=
  ⟨by decide, c9_alignment_invariance (fun _ => 9) (fun _ => 9) 1 4 2 7 (by decide)⟩

/-- C10: on an empty buffer (length 0) the folding engine returns the
32-bit seed unchanged: no stage touches the accumulator. -/
theorem c10_empty_buffer_identity (mem : Nat → Nat) (M prev : Nat) (h : prev < 2 ^ 32) :
    option_14_golden_amd mem M 0 prev = prev := by
  rw [option14_eq_crcBytes]
  rw [show bytesAt mem M 0 = [] from rfl, crcBytes_nil]
  exact Nat.mod_eq_of_lt h

/-- C10 (witness): seed 5 on an empty buffer at address 6. -/
theorem c10_empty_buffer_identity_witness :
    5 < 2 ^ 32 ∧ option_14_golden_amd (fun _ => 3) 6 0 5 = 5 :=
  ⟨by decide, c10_empty_buffer_identity (fun _ => 3) 6 5 (by decide)⟩

end CRC
